import Mathlib

/-!
# WhisperLyrics: the lyric parser and the playback synchroniser of `frontend/app.js`

Shallow embedding of `parseLRC`, `displayLyrics`, the `timeupdate` listener and
`highlightLine`, followed by the properties proved about them.

Conventions of the embedding:

* a JavaScript string is a `List Char` (the lyric text comes from `Response.text()`, which
  always yields well-formed Unicode);
* the numbers computed by `parseLRC` are natural numbers with exact arithmetic. The page
  computes them as IEEE doubles, which hold the same values as long as `min * 60 + sec` stays
  below `2^53`; from there on the page rounds (and reaches `Infinity` for some 309 digits), so
  every statement about the value of a parsed time carries that bound;
* the playback position `audio.currentTime` is a rational number;
* the document is reduced to the list of its `.lyric-line` elements, each one reduced to
  whether its class list holds `active`, plus a log of the calls and visual effects made.
-/

namespace WhisperLyrics

/-! ## Data model -/

/-- One element of `lyricsData`: the object `{ time, text }` built by `parseLRC`. -/
structure TimedLine where
  time : Nat
  text : List Char
deriving DecidableEq

/-! ## The parser `parseLRC` -/

/-- The regular-expression class `\d` (no `u` flag): the ASCII digits `0` to `9`. -/
def isDigit (c : Char) : Bool := decide (48 ≤ c.toNat) && decide (c.toNat ≤ 57)

/-- ECMAScript *LineTerminator*: LF, CR, U+2028 and U+2029. These are the characters that the
regular-expression atom `.` refuses. -/
def isLineTerminator (c : Char) : Bool :=
  c.toNat == 0x0A || c.toNat == 0x0D || c.toNat == 0x2028 || c.toNat == 0x2029

/-- ECMAScript *WhiteSpace*: TAB, VT, FF, U+FEFF and the space separators (category Zs). -/
def isWhiteSpace (c : Char) : Bool :=
  c.toNat == 0x09 || c.toNat == 0x0B || c.toNat == 0x0C || c.toNat == 0xFEFF ||
  c.toNat == 0x20 || c.toNat == 0xA0 || c.toNat == 0x1680 ||
  (decide (0x2000 ≤ c.toNat) && decide (c.toNat ≤ 0x200A)) ||
  c.toNat == 0x202F || c.toNat == 0x205F || c.toNat == 0x3000

/-- The characters that `String.prototype.trim` strips: white space and line terminators. -/
def isTrimmed (c : Char) : Bool := isWhiteSpace c || isLineTerminator c

/-- The method `String.prototype.trim`: strips the leading and the trailing run of stripped
characters. -/
def trim (s : List Char) : List Char :=
  ((s.dropWhile isTrimmed).reverse.dropWhile isTrimmed).reverse

/-- The call `parseInt(...)` on a capture of `\d+`: the decimal value of a string of ASCII
digits. The value is exact; the page holds it in a double, which is the same number below
`2^53` and a rounded one above. -/
def parseInt (digits : List Char) : Nat :=
  digits.foldl (fun acc c => acc * 10 + (c.toNat - 48)) 0

/-- The call `text.split("\n")`: the pieces between line feeds; never the empty list. -/
def split : List Char → List (List Char)
  | [] => [[]]
  | c :: cs =>
    if c = '\n' then [] :: split cs
    else
      match split cs with
      | [] => [[c]]
      | piece :: pieces => (c :: piece) :: pieces

/-- One attempt of the regular expression `/\[(\d+):(\d+)\](.*)/` at the very start of `s`,
returning the three captures. Both `\d+` are greedy and are followed by a character that is not
a digit, so taking the whole run of digits is the only way to match; the final `(.*)` takes the
longest run of characters that are not line terminators. -/
def matchHere (s : List Char) : Option (List Char × List Char × List Char) :=
  match s with
  | '[' :: s1 =>
    let min := s1.takeWhile isDigit
    if min.isEmpty then none
    else
      match s1.dropWhile isDigit with
      | ':' :: s2 =>
        let sec := s2.takeWhile isDigit
        if sec.isEmpty then none
        else
          match s2.dropWhile isDigit with
          | ']' :: s3 => some (min, sec, s3.takeWhile (fun c => !isLineTerminator c))
          | _ => none
      | _ => none
  | _ => none

/-- The call `line.match(/\[(\d+):(\d+)\](.*)/)`: the expression carries no `^`, so the search
tries every start position from left to right and keeps the first one that matches. -/
def regexMatch : List Char → Option (List Char × List Char × List Char)
  | [] => matchHere []
  | c :: cs =>
    match matchHere (c :: cs) with
    | some m => some m
    | none => regexMatch cs

/-- The arrow function mapped over the lines by `parseLRC`: `null` becomes `none`. The time
`parseInt(min) * 60 + parseInt(sec)` is computed exactly, as the page does below `2^53`. -/
def parseLine (line : List Char) : Option TimedLine :=
  match regexMatch line with
  | none => none
  | some (min, sec, lyric) => some ⟨parseInt min * 60 + parseInt sec, trim lyric⟩

/-- The function `parseLRC`: `text.split("\n").map(...).filter(Boolean)`. -/
def parseLRC (text : List Char) : List TimedLine :=
  ((split text).map parseLine).filterMap id

/-! ## Rendering -/

/-- The opening tag written by `displayLyrics` in front of every lyric text. -/
def openTag : List Char := "<div class=\"lyric-line\">".toList

/-- The closing tag written by `displayLyrics` behind every lyric text. -/
def closeTag : List Char := "</div>".toList

/-- The function `displayLyrics`: the markup string assigned to `lyricsDiv.innerHTML`. The lyric
text is interpolated as it is. -/
def displayLyrics (lyricsData : List TimedLine) : List Char :=
  (lyricsData.map (fun l => openTag ++ l.text ++ closeTag)).flatten

/-! ## The synchroniser -/

/-- The condition tested by the `timeupdate` loop for index `i`:
`currentTime >= lyricsData[i].time && (i === lyricsData.length - 1 ||
currentTime < lyricsData[i + 1].time)`. The loop only runs for `i < lyricsData.length`, and
`||` evaluates `lyricsData[i + 1]` only when that element exists. On natural numbers the test
`i === lyricsData.length - 1` is written `i + 1 = lyricsData.length`. -/
def lineMatches (lyricsData : List TimedLine) (currentTime : ℚ) (i : Nat) : Bool :=
  match lyricsData[i]? with
  | none => false
  | some cur =>
    decide ((cur.time : ℚ) ≤ currentTime) &&
      (decide (i + 1 = lyricsData.length) ||
        match lyricsData[i + 1]? with
        | none => false
        | some next => decide (currentTime < (next.time : ℚ)))

/-- The `for` loop of the `timeupdate` listener with its `break`: the first index, counting up
from `0`, whose condition holds, if there is one. -/
def timeupdateIndex (lyricsData : List TimedLine) (currentTime : ℚ) : Option Nat :=
  (List.range lyricsData.length).find? (lineMatches lyricsData currentTime)

/-- The page state seen by the synchroniser. `lines` are the `.lyric-line` elements in document
order, `true` for an element whose class list holds `active`. `calls` logs the arguments of the
`highlightLine` invocations and `pulses` the elements that were scrolled to and animated, both
oldest first. -/
structure Page where
  lyricsData : List TimedLine
  lines : List Bool
  calls : List Nat
  pulses : List Nat
deriving DecidableEq

/-- The function `highlightLine`: every element gets `classList.toggle("active", i === index)`;
when `lines[index]` exists it is scrolled into view and animated. -/
def highlightLine (p : Page) (index : Nat) : Page :=
  { p with
    lines := p.lines.mapIdx (fun i _ => decide (i = index))
    calls := p.calls ++ [index]
    pulses := if index < p.lines.length then p.pulses ++ [index] else p.pulses }

/-- The `timeupdate` listener for one position sample. -/
def timeupdate (p : Page) (currentTime : ℚ) : Page :=
  match timeupdateIndex p.lyricsData currentTime with
  | some i => highlightLine p i
  | none => p

/-- A stream of position samples, handled one after the other. -/
def timeupdates (p : Page) (samples : List ℚ) : Page :=
  samples.foldl timeupdate p

/-! ## Notions of the specification -/

/-- The timeline is in non-decreasing time order. -/
def NonDecreasing (lyricsData : List TimedLine) : Prop :=
  lyricsData.Pairwise (fun a b => a.time ≤ b.time)

/-- Line `i` exists and its time is at most `t`. -/
def qualifies (lyricsData : List TimedLine) (t : ℚ) (i : Nat) : Bool :=
  match lyricsData[i]? with
  | none => false
  | some l => decide ((l.time : ℚ) ≤ t)

/-- The selection rule of the specification for position `t` and index `i`: line `i` has time at
most `t`, and `i` is the last index or line `i + 1` has a time above `t`. -/
def SelectionRule (lyricsData : List TimedLine) (t : ℚ) (i : Nat) : Prop :=
  ∃ cur, lyricsData[i]? = some cur ∧ (cur.time : ℚ) ≤ t ∧
    (i + 1 = lyricsData.length ∨
      ∃ next, lyricsData[i + 1]? = some next ∧ t < (next.time : ℚ))

/-- The search of the specification: the greatest index whose line has time at most `t`. -/
def lastQualifyingIndex (lyricsData : List TimedLine) (t : ℚ) : Option Nat :=
  ((List.range lyricsData.length).filter (qualifies lyricsData t)).getLast?

/-- No lyric line is in highlighted state. -/
def NoneHighlighted (p : Page) : Prop := ∀ b ∈ p.lines, b = false

/-- A line of the timed-text format, `[min:sec]rest`. -/
def tagLine (min sec rest : List Char) : List Char :=
  '[' :: (min ++ ':' :: (sec ++ ']' :: rest))

/-- A non-empty string of decimal digits. -/
def IsDigits (s : List Char) : Prop := s ≠ [] ∧ ∀ c ∈ s, isDigit c = true

/-- The line begins with a time tag `[digits:digits]`. -/
def BeginsWithTimeTag (line : List Char) : Prop :=
  ∃ min sec rest, IsDigits min ∧ IsDigits sec ∧ line = tagLine min sec rest

/-- The line holds a time tag `[digits:digits]` somewhere. -/
def ContainsTimeTag (line : List Char) : Prop :=
  ∃ before after, line = before ++ after ∧ BeginsWithTimeTag after

/-- The lines of a text put together again with line feeds, the inverse of `split`. -/
def joinLines : List (List Char) → List Char
  | [] => []
  | [l] => l
  | l :: l' :: ls => l ++ '\n' :: joinLines (l' :: ls)

/-- A well-formed source line in three parts: minutes, seconds, trailing text. -/
structure TaggedLine where
  min : List Char
  sec : List Char
  rest : List Char
deriving DecidableEq

/-- The three parts are well formed: digits, digits, and a text without a line feed. -/
def TaggedLine.WellFormed (e : TaggedLine) : Prop :=
  IsDigits e.min ∧ IsDigits e.sec ∧ '\n' ∉ e.rest

/-- The source line `[min:sec]rest` of a tagged line. -/
def TaggedLine.render (e : TaggedLine) : List Char := tagLine e.min e.sec e.rest

/-- The number of positions of `s` at which `pattern` occurs. -/
def countOccurrences (pattern s : List Char) : Nat :=
  (s.tails.filter (fun suffix => pattern.isPrefixOf suffix)).length

/-- The timeline with times 0, 10 and 20 used by the examples of the specification. -/
def exampleTimeline : List TimedLine :=
  [⟨0, "a".toList⟩, ⟨10, "b".toList⟩, ⟨20, "c".toList⟩]

/-- The timeline with two lines at time 5. -/
def tieTimeline : List TimedLine := [⟨5, "a".toList⟩, ⟨5, "b".toList⟩]

/-- The raw text of the end-to-end scenario. -/
def scenarioText : List Char :=
  "[00:00]Hello\n[01:05]World\nnot a line\n[01:05]Tie".toList

/-- The timeline of the end-to-end scenario. -/
def scenarioTimeline : List TimedLine :=
  [⟨0, "Hello".toList⟩, ⟨65, "World".toList⟩, ⟨65, "Tie".toList⟩]

/-- A freshly rendered page for a timeline: one element per given flag, nothing logged. -/
def pageOf (lyricsData : List TimedLine) (lines : List Bool) : Page :=
  ⟨lyricsData, lines, [], []⟩

/-! ## Lemmas on the selection rule -/

theorem qualifies_iff {d : List TimedLine} {t : ℚ} {i : Nat} :
    qualifies d t i = true ↔ ∃ l, d[i]? = some l ∧ (l.time : ℚ) ≤ t := by
  unfold qualifies
  cases h : d[i]? with
  | none => simp
  | some l => simp

theorem qualifies_lt_length {d : List TimedLine} {t : ℚ} {i : Nat}
    (h : qualifies d t i = true) : i < d.length := by
  obtain ⟨l, hl, _⟩ := qualifies_iff.1 h
  by_contra hge
  rw [List.getElem?_eq_none (by omega)] at hl
  cases hl

theorem lineMatches_iff_selectionRule {d : List TimedLine} {t : ℚ} {i : Nat} :
    lineMatches d t i = true ↔ SelectionRule d t i := by
  unfold lineMatches SelectionRule
  cases h : d[i]? with
  | none => simp
  | some cur =>
    cases h2 : d[i + 1]? with
    | none => simp
    | some next => simp

theorem time_le_of_le {d : List TimedLine} (hs : NonDecreasing d) {i j : Nat} {a b : TimedLine}
    (hij : i ≤ j) (hi : d[i]? = some a) (hj : d[j]? = some b) : a.time ≤ b.time := by
  rcases Nat.eq_or_lt_of_le hij with rfl | hlt
  · rw [hi] at hj
    cases hj
    exact le_rfl
  · obtain ⟨hi', rfl⟩ := List.getElem?_eq_some.1 hi
    obtain ⟨hj', rfl⟩ := List.getElem?_eq_some.1 hj
    exact (List.pairwise_iff_getElem.1 hs) i j hi' hj' hlt

theorem qualifies_of_le {d : List TimedLine} (hs : NonDecreasing d) {t : ℚ} {i j : Nat}
    (hij : i ≤ j) (hj : qualifies d t j = true) : qualifies d t i = true := by
  obtain ⟨b, hb, hbt⟩ := qualifies_iff.1 hj
  have hjlt := qualifies_lt_length hj
  have hilt : i < d.length := by omega
  refine qualifies_iff.2 ⟨d[i], List.getElem?_eq_getElem hilt, ?_⟩
  have := time_le_of_le hs hij (List.getElem?_eq_getElem hilt) hb
  have h2 : ((d[i].time : ℕ) : ℚ) ≤ (b.time : ℚ) := by exact_mod_cast this
  exact le_trans h2 hbt

/-- On a timeline in non-decreasing order the selection rule picks the greatest qualifying
index. -/
theorem selectionRule_iff_greatest {d : List TimedLine} (hs : NonDecreasing d) {t : ℚ}
    {i : Nat} :
    SelectionRule d t i ↔
      qualifies d t i = true ∧ ∀ j, i < j → qualifies d t j = false := by
  constructor
  · rintro ⟨cur, hcur, hle, hnext⟩
    refine ⟨qualifies_iff.2 ⟨cur, hcur, hle⟩, ?_⟩
    intro j hij
    by_contra hq
    have hq : qualifies d t j = true := by simpa using hq
    rcases hnext with hlast | ⟨next, hn, hlt⟩
    · have := qualifies_lt_length hq
      omega
    · have h1 := qualifies_of_le hs (Nat.succ_le_of_lt hij) hq
      obtain ⟨l, hl, hlt'⟩ := qualifies_iff.1 h1
      rw [hn] at hl
      cases hl
      exact absurd hlt (not_lt.2 hlt')
  · rintro ⟨hq, hgt⟩
    obtain ⟨cur, hcur, hle⟩ := qualifies_iff.1 hq
    refine ⟨cur, hcur, hle, ?_⟩
    have hi := qualifies_lt_length hq
    by_cases hlast : i + 1 = d.length
    · exact Or.inl hlast
    · right
      have hlt : i + 1 < d.length := by omega
      refine ⟨d[i + 1], List.getElem?_eq_getElem hlt, ?_⟩
      have hf := hgt (i + 1) (Nat.lt_succ_self i)
      unfold qualifies at hf
      rw [List.getElem?_eq_getElem hlt] at hf
      simpa using hf

theorem getLast?_filter_range_succ (p : Nat → Bool) (n : Nat) :
    ((List.range (n + 1)).filter p).getLast? =
      if p n = true then some n else ((List.range n).filter p).getLast? := by
  rw [List.range_succ, List.filter_append]
  by_cases h : p n = true
  · simp [h]
  · simp [h]

theorem getLast?_filter_range_eq_some (p : Nat → Bool) (n i : Nat) :
    ((List.range n).filter p).getLast? = some i ↔
      i < n ∧ p i = true ∧ ∀ j, i < j → j < n → p j = false := by
  induction n with
  | zero => simp
  | succ n ih =>
    rw [getLast?_filter_range_succ]
    by_cases h : p n = true
    · rw [if_pos h, Option.some.injEq]
      constructor
      · rintro rfl
        exact ⟨Nat.lt_succ_self _, h, fun j h1 h2 => by omega⟩
      · rintro ⟨h1, _, h3⟩
        by_contra hne
        have := h3 n (by omega) (Nat.lt_succ_self _)
        rw [h] at this
        cases this
    · rw [if_neg h, ih]
      have hf : p n = false := by simpa using h
      constructor
      · rintro ⟨h1, h2, h3⟩
        refine ⟨by omega, h2, fun j hij hj => ?_⟩
        rcases Nat.eq_or_lt_of_le (Nat.le_of_lt_succ hj) with rfl | hlt
        · exact hf
        · exact h3 j hij hlt
      · rintro ⟨h1, h2, h3⟩
        have hin : i ≠ n := by
          rintro rfl
          rw [hf] at h2
          cases h2
        exact ⟨by omega, h2, fun j hij hj => h3 j hij (by omega)⟩

theorem getLast?_filter_range_eq_none (p : Nat → Bool) (n : Nat) :
    ((List.range n).filter p).getLast? = none ↔ ∀ j, j < n → p j = false := by
  simp [List.getLast?_eq_none_iff, List.filter_eq_nil_iff]

theorem lastQualifyingIndex_eq_some {d : List TimedLine} {t : ℚ} {i : Nat} :
    lastQualifyingIndex d t = some i ↔
      qualifies d t i = true ∧ ∀ j, i < j → qualifies d t j = false := by
  unfold lastQualifyingIndex
  rw [getLast?_filter_range_eq_some]
  constructor
  · rintro ⟨_, h2, h3⟩
    refine ⟨h2, fun j hij => ?_⟩
    by_cases hj : j < d.length
    · exact h3 j hij hj
    · by_contra hq
      have hq : qualifies d t j = true := by simpa using hq
      exact hj (qualifies_lt_length hq)
  · rintro ⟨h2, h3⟩
    exact ⟨qualifies_lt_length h2, h2, fun j hij _ => h3 j hij⟩

theorem lastQualifyingIndex_eq_none {d : List TimedLine} {t : ℚ} :
    lastQualifyingIndex d t = none ↔ ∀ j, qualifies d t j = false := by
  unfold lastQualifyingIndex
  rw [getLast?_filter_range_eq_none]
  constructor
  · intro h j
    by_cases hj : j < d.length
    · exact h j hj
    · by_contra hq
      have hq : qualifies d t j = true := by simpa using hq
      exact hj (qualifies_lt_length hq)
  · intro h j _
    exact h j

theorem timeupdateIndex_eq_some {d : List TimedLine} {t : ℚ} {i : Nat} :
    timeupdateIndex d t = some i ↔
      lineMatches d t i = true ∧ ∀ j, j < i → lineMatches d t j = false := by
  unfold timeupdateIndex
  rw [List.find?_range_eq_some]
  constructor
  · rintro ⟨h1, _, h3⟩
    exact ⟨h1, fun j hj => by simpa using h3 j hj⟩
  · rintro ⟨h1, h3⟩
    refine ⟨h1, ?_, fun j hj => by simpa using h3 j hj⟩
    obtain ⟨cur, hcur, _⟩ := lineMatches_iff_selectionRule.1 h1
    rw [List.mem_range]
    exact (List.getElem?_eq_some.1 hcur).1

theorem timeupdateIndex_eq_none {d : List TimedLine} {t : ℚ} :
    timeupdateIndex d t = none ↔ ∀ j, lineMatches d t j = false := by
  unfold timeupdateIndex
  rw [List.find?_range_eq_none]
  constructor
  · intro h j
    by_cases hj : j < d.length
    · simpa using h j hj
    · unfold lineMatches
      rw [List.getElem?_eq_none (by omega)]
  · intro h j _
    simp [h j]

/-- On a timeline in non-decreasing order the loop of the listener returns what the search for
the last qualifying index returns. -/
theorem timeupdateIndex_eq_lastQualifyingIndex_of_nonDecreasing {d : List TimedLine}
    (hs : NonDecreasing d) (t : ℚ) : timeupdateIndex d t = lastQualifyingIndex d t := by
  cases h : lastQualifyingIndex d t with
  | none =>
    rw [lastQualifyingIndex_eq_none] at h
    rw [timeupdateIndex_eq_none]
    intro j
    by_contra hm
    have hm : lineMatches d t j = true := by simpa using hm
    have := ((selectionRule_iff_greatest hs).1 (lineMatches_iff_selectionRule.1 hm)).1
    rw [h j] at this
    cases this
  | some i =>
    rw [lastQualifyingIndex_eq_some] at h
    rw [timeupdateIndex_eq_some]
    refine ⟨lineMatches_iff_selectionRule.2 ((selectionRule_iff_greatest hs).2 h), ?_⟩
    intro j hji
    by_contra hm
    have hm : lineMatches d t j = true := by simpa using hm
    have := ((selectionRule_iff_greatest hs).1 (lineMatches_iff_selectionRule.1 hm)).2 i hji
    rw [h.1] at this
    cases this

/-! ## Lemmas on the listener -/

theorem highlightLine_lyricsData (p : Page) (i : Nat) :
    (highlightLine p i).lyricsData = p.lyricsData := rfl

theorem highlightLine_lines_length (p : Page) (i : Nat) :
    (highlightLine p i).lines.length = p.lines.length := by
  simp [highlightLine]

theorem highlightLine_lines_idem (p : Page) (i : Nat) :
    (highlightLine (highlightLine p i) i).lines = (highlightLine p i).lines := by
  simp [highlightLine, List.mapIdx_mapIdx, Function.comp_def]

/-- After `highlightLine p index` the element `j` is highlighted exactly when `j = index`. -/
theorem highlightLine_getElem? (p : Page) (index j : Nat) :
    (highlightLine p index).lines[j]? = some true ↔ j = index ∧ j < p.lines.length := by
  simp only [highlightLine, List.getElem?_mapIdx]
  by_cases hj : j < p.lines.length
  · simp [List.getElem?_eq_getElem hj, hj]
  · simp [List.getElem?_eq_none (Nat.le_of_not_lt hj), hj]

theorem timeupdate_of_index {p : Page} {t : ℚ} {i : Nat}
    (h : timeupdateIndex p.lyricsData t = some i) : timeupdate p t = highlightLine p i := by
  simp [timeupdate, h]

theorem timeupdate_of_no_index {p : Page} {t : ℚ}
    (h : timeupdateIndex p.lyricsData t = none) : timeupdate p t = p := by
  simp [timeupdate, h]

theorem timeupdates_same_index (samples : List ℚ) (i : Nat) :
    ∀ p : Page, (∀ t ∈ samples, timeupdateIndex p.lyricsData t = some i) →
      (timeupdates p samples).calls = p.calls ++ List.replicate samples.length i ∧
      (timeupdates p samples).pulses =
        p.pulses ++ (if i < p.lines.length then List.replicate samples.length i else []) ∧
      (samples ≠ [] → (timeupdates p samples).lines = (highlightLine p i).lines) := by
  induction samples with
  | nil => intro p _; simp [timeupdates]
  | cons t ts ih =>
    intro p h
    have ht : timeupdate p t = highlightLine p i :=
      timeupdate_of_index (h t (List.mem_cons_self _ _))
    have hrest : ∀ u ∈ ts, timeupdateIndex (highlightLine p i).lyricsData u = some i := by
      intro u hu
      rw [highlightLine_lyricsData]
      exact h u (List.mem_cons_of_mem _ hu)
    obtain ⟨hc, hp, hl⟩ := ih (highlightLine p i) hrest
    have hstep : timeupdates p (t :: ts) = timeupdates (highlightLine p i) ts := by
      simp [timeupdates, ht]
    rw [hstep, hc, hp, highlightLine_lines_length]
    refine ⟨?_, ?_, ?_⟩
    · simp [highlightLine, List.replicate_succ]
    · by_cases hi : i < p.lines.length
      · simp [highlightLine, hi, List.replicate_succ]
      · simp [highlightLine, hi]
    · intro _
      by_cases hts : ts = []
      · subst hts
        simp [timeupdates]
      · rw [hl hts, highlightLine_lines_idem]

/-- On a page whose lyric-line elements are aligned with the timeline, a sample that maps to the
index `i` leaves element `i`, and no other element, highlighted, and `i` is an index of the
timeline. -/
theorem timeupdate_highlights_exactly (p : Page) (t : ℚ) (i : Nat)
    (halign : p.lines.length = p.lyricsData.length)
    (h : timeupdateIndex p.lyricsData t = some i) :
    i < p.lyricsData.length ∧ ∀ j, (timeupdate p t).lines[j]? = some true ↔ j = i := by
  have hi : i < p.lyricsData.length := by
    have := (timeupdateIndex_eq_some.1 h).1
    obtain ⟨cur, hcur, _⟩ := lineMatches_iff_selectionRule.1 this
    exact (List.getElem?_eq_some.1 hcur).1
  refine ⟨hi, fun j => ?_⟩
  rw [timeupdate_of_index h, highlightLine_getElem?]
  constructor
  · exact fun hj => hj.1
  · rintro rfl
    exact ⟨rfl, by omega⟩

/-! ## Claims on the synchroniser -/

/-- C1: on a timeline in non-decreasing time order and for a position `t` that at least one line
time does not exceed, the listener calls `highlightLine` exactly once, with an index that
satisfies the selection rule, and no other index of the timeline satisfies the rule. -/
theorem timeupdate_selects_unique_line (p : Page) (t : ℚ)
    (hs : NonDecreasing p.lyricsData)
    (hex : ∃ l ∈ p.lyricsData, (l.time : ℚ) ≤ t) :
    ∃ i, timeupdate p t = highlightLine p i ∧
      (timeupdate p t).calls = p.calls ++ [i] ∧
      SelectionRule p.lyricsData t i ∧
      ∀ j, SelectionRule p.lyricsData t j → j = i := by
  obtain ⟨l, hl, hlt⟩ := hex
  obtain ⟨k, hk, hkl⟩ := List.getElem_of_mem hl
  have hq : qualifies p.lyricsData t k = true :=
    qualifies_iff.2 ⟨l, by rw [List.getElem?_eq_getElem hk, hkl], hlt⟩
  cases hlast : lastQualifyingIndex p.lyricsData t with
  | none =>
    rw [lastQualifyingIndex_eq_none] at hlast
    rw [hlast k] at hq
    cases hq
  | some i =>
    have hidx : timeupdateIndex p.lyricsData t = some i := by
      rw [timeupdateIndex_eq_lastQualifyingIndex_of_nonDecreasing hs, hlast]
    have hgi := lastQualifyingIndex_eq_some.1 hlast
    refine ⟨i, timeupdate_of_index hidx, ?_, (selectionRule_iff_greatest hs).2 hgi, ?_⟩
    · rw [timeupdate_of_index hidx]
      rfl
    · intro j hj
      have hgj := (selectionRule_iff_greatest hs).1 hj
      rcases Nat.lt_trichotomy j i with hlt | heq | hgt
      · have := hgj.2 i hlt
        rw [hgi.1] at this
        cases this
      · exact heq
      · have := hgi.2 j hgt
        rw [hgj.1] at this
        cases this

/-- C1, witness: the timeline with times 0, 10, 20 at position 5. -/
theorem timeupdate_selects_unique_line_witness :
    NonDecreasing (pageOf exampleTimeline [false, false, false]).lyricsData ∧
    (∃ l ∈ (pageOf exampleTimeline [false, false, false]).lyricsData, (l.time : ℚ) ≤ 5) ∧
    ∃ i, timeupdate (pageOf exampleTimeline [false, false, false]) 5 =
        highlightLine (pageOf exampleTimeline [false, false, false]) i ∧
      (timeupdate (pageOf exampleTimeline [false, false, false]) 5).calls =
        (pageOf exampleTimeline [false, false, false]).calls ++ [i] ∧
      SelectionRule (pageOf exampleTimeline [false, false, false]).lyricsData 5 i ∧
      ∀ j, SelectionRule (pageOf exampleTimeline [false, false, false]).lyricsData 5 j →
        j = i :=
  have hs : NonDecreasing (pageOf exampleTimeline [false, false, false]).lyricsData := by
    simp [NonDecreasing, pageOf, exampleTimeline]
  have hex : ∃ l ∈ (pageOf exampleTimeline [false, false, false]).lyricsData,
      (l.time : ℚ) ≤ 5 :=
    ⟨⟨0, "a".toList⟩, by simp [pageOf, exampleTimeline], by norm_num⟩
  ⟨hs, hex,
    timeupdate_selects_unique_line (pageOf exampleTimeline [false, false, false]) 5 hs hex⟩

/-- The examples of the selection rule: with times 0, 10, 20 the positions 5, 10, 19.9 and 25
give the indices 0, 1, 1 and 2. -/
theorem timeupdateIndex_examples :
    timeupdateIndex exampleTimeline 5 = some 0 ∧
    timeupdateIndex exampleTimeline 10 = some 1 ∧
    timeupdateIndex exampleTimeline (199 / 10) = some 1 ∧
    timeupdateIndex exampleTimeline 25 = some 2 := by
  refine ⟨by decide, by decide, ?_, by decide⟩
  simp [timeupdateIndex, lineMatches, exampleTimeline, List.range_succ, List.find?]
  norm_num

/-- C2: on a timeline in non-decreasing time order the index chosen by the linear scan of the
listener is the greatest index whose line time is at most `t`, the result of a search for the
last qualifying index; with equal times the latest line is chosen. -/
theorem scan_eq_last_qualifying_search (lyricsData : List TimedLine) (t : ℚ)
    (hs : NonDecreasing lyricsData) :
    timeupdateIndex lyricsData t = lastQualifyingIndex lyricsData t ∧
    ∀ i, timeupdateIndex lyricsData t = some i ↔
      (qualifies lyricsData t i = true ∧ ∀ j, qualifies lyricsData t j = true → j ≤ i) := by
  refine ⟨timeupdateIndex_eq_lastQualifyingIndex_of_nonDecreasing hs t, fun i => ?_⟩
  rw [timeupdateIndex_eq_lastQualifyingIndex_of_nonDecreasing hs t, lastQualifyingIndex_eq_some]
  constructor
  · rintro ⟨h1, h2⟩
    refine ⟨h1, fun j hj => ?_⟩
    by_contra hlt
    have := h2 j (Nat.lt_of_not_le hlt)
    rw [hj] at this
    cases this
  · rintro ⟨h1, h2⟩
    refine ⟨h1, fun j hij => ?_⟩
    by_contra hq
    have hq : qualifies lyricsData t j = true := by simpa using hq
    have := h2 j hq
    omega

/-- C2, witness: two lines at time 5 and position 5; the scan picks index 1. -/
theorem scan_eq_last_qualifying_search_witness :
    NonDecreasing tieTimeline ∧
    timeupdateIndex tieTimeline 5 = some 1 ∧
    lastQualifyingIndex tieTimeline 5 = some 1 :=
  have hs : NonDecreasing tieTimeline := by simp [NonDecreasing, tieTimeline]
  have h1 : timeupdateIndex tieTimeline 5 = some 1 := by decide
  ⟨hs, h1, (scan_eq_last_qualifying_search tieTimeline 5 hs).1 ▸ h1⟩

theorem selectionRule_time_nonneg {d : List TimedLine} {t : ℚ} {i : Nat}
    (h : SelectionRule d t i) : 0 ≤ t := by
  obtain ⟨cur, _, hle, _⟩ := h
  exact le_trans (Nat.cast_nonneg _) hle

/-- C3, as stated, fails: with times 0, 10, 20 and line 1 highlighted, the sample `-1` satisfies
the rule for no index, and line 1 is still highlighted after it. -/
theorem timeupdate_no_line_counterexample :
    ¬ ∀ (p : Page) (t : ℚ), (∀ i, ¬ SelectionRule p.lyricsData t i) →
        NoneHighlighted (timeupdate p t) := by
  intro h
  have hno : ∀ i,
      ¬ SelectionRule (pageOf exampleTimeline [false, true, false]).lyricsData (-1) i := by
    intro i hi
    have := selectionRule_time_nonneg hi
    norm_num at this
  have hnone := h (pageOf exampleTimeline [false, true, false]) (-1) hno
  have hlines : (timeupdate (pageOf exampleTimeline [false, true, false]) (-1)).lines =
      [false, true, false] := by decide
  have := hnone true (by rw [hlines]; simp)
  cases this

/-- C3, amended: when no index satisfies the selection rule for the sample, the listener makes no
`highlightLine` call and leaves the page as it was, so the lines highlighted before the sample
are those highlighted after it; no line is highlighted after it when none was before. -/
theorem timeupdate_no_line_unchanged (p : Page) (t : ℚ)
    (hno : ∀ i, ¬ SelectionRule p.lyricsData t i) :
    timeupdate p t = p ∧ (NoneHighlighted p → NoneHighlighted (timeupdate p t)) := by
  have hidx : timeupdateIndex p.lyricsData t = none := by
    rw [timeupdateIndex_eq_none]
    intro j
    by_contra hm
    have hm : lineMatches p.lyricsData t j = true := by simpa using hm
    exact hno j (lineMatches_iff_selectionRule.1 hm)
  have hp := timeupdate_of_no_index hidx
  exact ⟨hp, fun h => by rw [hp]; exact h⟩

/-- C3, amended, witness: times 0, 10, 20, line 1 highlighted, sample `-1`. -/
theorem timeupdate_no_line_unchanged_witness :
    (∀ i, ¬ SelectionRule (pageOf exampleTimeline [false, true, false]).lyricsData (-1) i) ∧
    timeupdate (pageOf exampleTimeline [false, true, false]) (-1) =
      pageOf exampleTimeline [false, true, false] :=
  have hno : ∀ i,
      ¬ SelectionRule (pageOf exampleTimeline [false, true, false]).lyricsData (-1) i :=
    fun i hi => by
      have := selectionRule_time_nonneg hi
      norm_num at this
  ⟨hno, (timeupdate_no_line_unchanged (pageOf exampleTimeline [false, true, false]) (-1) hno).1⟩

/-- C4, as stated, fails: on the one-line timeline with time 0 the samples 0 and 1 both map to
index 0, and the listener calls `highlightLine` twice, once per sample. -/
theorem timeupdates_single_event_counterexample :
    ¬ ∀ (p : Page) (samples : List ℚ) (i : Nat), samples ≠ [] →
        (∀ t ∈ samples, timeupdateIndex p.lyricsData t = some i) →
        (timeupdates p samples).calls = p.calls ++ [i] := by
  intro h
  have hc := h (pageOf [⟨0, "a".toList⟩] [false]) [0, 1] 0 (by simp) (by
    intro t ht
    simp only [List.mem_cons, List.mem_singleton, List.not_mem_nil, or_false] at ht
    rcases ht with rfl | rfl <;> decide)
  have hcalls : (timeupdates (pageOf [⟨0, "a".toList⟩] [false]) [0, 1]).calls = [0, 0] := by
    decide
  rw [hcalls] at hc
  simp [pageOf] at hc

/-- C4, amended: the listener keeps no record of the index it emitted last; every sample that
maps to an index makes one `highlightLine` call. For samples that all map to the index `i` there
are as many calls as samples, each with its scroll and animation when element `i` exists, and
the highlighted lines after the first sample and after every later one are those set by
`highlightLine i`. -/
theorem timeupdates_one_call_per_sample (p : Page) (samples : List ℚ) (i : Nat)
    (hne : samples ≠ [])
    (hsame : ∀ t ∈ samples, timeupdateIndex p.lyricsData t = some i) :
    (timeupdates p samples).calls = p.calls ++ List.replicate samples.length i ∧
    (timeupdates p samples).pulses =
      p.pulses ++ (if i < p.lines.length then List.replicate samples.length i else []) ∧
    (timeupdates p samples).lines = (highlightLine p i).lines := by
  obtain ⟨hc, hp, hl⟩ := timeupdates_same_index samples i p hsame
  exact ⟨hc, hp, hl hne⟩

/-- C4, amended, witness: one line at time 0 and the samples 0 and 1. -/
theorem timeupdates_one_call_per_sample_witness :
    (∀ t ∈ [(0 : ℚ), 1],
      timeupdateIndex (pageOf [⟨0, "a".toList⟩] [false]).lyricsData t = some 0) ∧
    (timeupdates (pageOf [⟨0, "a".toList⟩] [false]) [0, 1]).calls =
      (pageOf [⟨0, "a".toList⟩] [false]).calls ++ List.replicate [(0 : ℚ), 1].length 0 :=
  have hsame : ∀ t ∈ [(0 : ℚ), 1],
      timeupdateIndex (pageOf [⟨0, "a".toList⟩] [false]).lyricsData t = some 0 := by
    intro t ht
    simp only [List.mem_cons, List.mem_singleton, List.not_mem_nil, or_false] at ht
    rcases ht with rfl | rfl <;> decide
  ⟨hsame, (timeupdates_one_call_per_sample (pageOf [⟨0, "a".toList⟩] [false]) [0, 1] 0
    (by simp) hsame).1⟩

/-- C8: the end-to-end scenario. The four-line text parses to the three entries (0, Hello),
(65, World), (65, Tie), rendered as three lyric-line elements. Starting with no line
highlighted, the samples 0, 30, 65, 64.9, 90 leave line 0 highlighted after 0 and after 30,
line 2 after 65, and line 0 (not line 1) after 64.9;
the `highlightLine` calls are 0, 0, 2, 0, 2. -/
theorem scenario_end_to_end :
    parseLRC scenarioText = scenarioTimeline ∧
    displayLyrics (parseLRC scenarioText) =
      ("<div class=\"lyric-line\">Hello</div><div class=\"lyric-line\">World</div>".toList ++
        "<div class=\"lyric-line\">Tie</div>".toList) ∧
    NoneHighlighted (pageOf (parseLRC scenarioText) [false, false, false]) ∧
    (timeupdates (pageOf (parseLRC scenarioText) [false, false, false]) [0]).lines =
      [true, false, false] ∧
    (timeupdates (pageOf (parseLRC scenarioText) [false, false, false]) [0, 30]).lines =
      [true, false, false] ∧
    (timeupdates (pageOf (parseLRC scenarioText) [false, false, false]) [0, 30, 65]).lines =
      [false, false, true] ∧
    (timeupdates (pageOf (parseLRC scenarioText) [false, false, false])
      [0, 30, 65, 649 / 10]).lines = [true, false, false] ∧
    (timeupdates (pageOf (parseLRC scenarioText) [false, false, false])
      [0, 30, 65, 649 / 10]).lines[1]? ≠ some true ∧
    (timeupdates (pageOf (parseLRC scenarioText) [false, false, false])
      [0, 30, 65, 649 / 10, 90]).calls = [0, 0, 2, 0, 2] := by
  have hparse : parseLRC scenarioText = scenarioTimeline := by decide
  have h0 : timeupdateIndex scenarioTimeline 0 = some 0 := by decide
  have h30 : timeupdateIndex scenarioTimeline 30 = some 0 := by decide
  have h65 : timeupdateIndex scenarioTimeline 65 = some 2 := by decide
  have h649 : timeupdateIndex scenarioTimeline (649 / 10) = some 0 := by
    simp [timeupdateIndex, lineMatches, scenarioTimeline, List.range_succ, List.find?]
    norm_num
  have h90 : timeupdateIndex scenarioTimeline 90 = some 2 := by decide
  rw [hparse]
  refine ⟨rfl, by decide, ?_, ?_, ?_, ?_, ?_, ?_, ?_⟩
  · intro b hb
    simpa [pageOf] using hb
  all_goals
    simp [timeupdates, timeupdate, pageOf, highlightLine, h0, h30, h65, h649, h90,
      List.mapIdx_cons]

/-! ## Lemmas on the parser -/

theorem split_ne_nil (s : List Char) : split s ≠ [] := by
  cases s with
  | nil => simp [split]
  | cons c cs =>
    unfold split
    split
    · simp
    · split <;> simp

theorem split_of_no_newline (l : List Char) (h : '\n' ∉ l) : split l = [l] := by
  induction l with
  | nil => rfl
  | cons c cs ih =>
    have hc : c ≠ '\n' := fun hc => h (by simp [hc])
    have hcs : '\n' ∉ cs := fun hcs => h (List.mem_cons_of_mem _ hcs)
    simp [split, hc, ih hcs]

theorem split_append_newline (l rest : List Char) (h : '\n' ∉ l) :
    split (l ++ '\n' :: rest) = l :: split rest := by
  induction l with
  | nil => simp [split]
  | cons c cs ih =>
    have hc : c ≠ '\n' := fun hc => h (by simp [hc])
    have hcs : '\n' ∉ cs := fun hcs => h (List.mem_cons_of_mem _ hcs)
    simp [split, hc, ih hcs]

/-- Splitting undoes joining, for a non-empty list of lines without line feeds. -/
theorem split_joinLines (ls : List (List Char)) (hne : ls ≠ [])
    (h : ∀ l ∈ ls, '\n' ∉ l) : split (joinLines ls) = ls := by
  induction ls with
  | nil => exact absurd rfl hne
  | cons l ls ih =>
    cases ls with
    | nil => simpa [joinLines] using split_of_no_newline l (h l (by simp))
    | cons l' ls' =>
      have := ih (by simp) (fun x hx => h x (List.mem_cons_of_mem _ hx))
      simp only [joinLines]
      rw [split_append_newline l _ (h l (by simp)), this]

theorem takeWhile_append_stop {p : Char → Bool} (m : List Char) (c : Char) (x : List Char)
    (hm : ∀ a ∈ m, p a = true) (hc : p c = false) :
    (m ++ c :: x).takeWhile p = m ∧ (m ++ c :: x).dropWhile p = c :: x := by
  induction m with
  | nil => simp [List.takeWhile, List.dropWhile, hc]
  | cons a m ih =>
    have ha := hm a (by simp)
    have := ih (fun b hb => hm b (List.mem_cons_of_mem _ hb))
    simp [List.takeWhile, List.dropWhile, ha, this]

theorem matchHere_tagLine (min sec rest : List Char) (hm : IsDigits min) (hs : IsDigits sec) :
    matchHere (tagLine min sec rest) =
      some (min, sec, rest.takeWhile (fun c => !isLineTerminator c)) := by
  obtain ⟨h1, h2⟩ := takeWhile_append_stop min ':' (sec ++ ']' :: rest) hm.2 (by decide)
  obtain ⟨h3, h4⟩ := takeWhile_append_stop sec ']' rest hs.2 (by decide)
  have hmne : min.isEmpty = false := by
    cases hmin : min with
    | nil => exact absurd hmin hm.1
    | cons _ _ => rfl
  have hsne : sec.isEmpty = false := by
    cases hsec : sec with
    | nil => exact absurd hsec hs.1
    | cons _ _ => rfl
  simp only [tagLine, matchHere, h1, h2, h3, h4, hmne, hsne]
  simp

theorem matchHere_isSome_iff (line : List Char) :
    (matchHere line).isSome = true ↔ BeginsWithTimeTag line := by
  constructor
  · intro h
    unfold matchHere at h
    split at h
    · rename_i s1
      simp only at h
      split at h
      · simp at h
      · rename_i hmin
        split at h
        · rename_i s2 hs2
          split at h
          · simp at h
          · rename_i hsec
            split at h
            · rename_i s3 hs3
              refine ⟨s1.takeWhile isDigit, s2.takeWhile isDigit, s3, ⟨?_, ?_⟩, ⟨?_, ?_⟩, ?_⟩
              · intro hnil
                rw [hnil] at hmin
                exact hmin rfl
              · intro c hc
                exact (List.mem_takeWhile_imp hc)
              · intro hnil
                rw [hnil] at hsec
                exact hsec rfl
              · intro c hc
                exact (List.mem_takeWhile_imp hc)
              · unfold tagLine
                rw [← hs3, List.takeWhile_append_dropWhile, ← hs2,
                  List.takeWhile_append_dropWhile]
            · simp at h
        · simp at h
    · simp at h
  · rintro ⟨min, sec, rest, hm, hs, rfl⟩
    rw [matchHere_tagLine min sec rest hm hs]
    rfl

theorem regexMatch_isSome_iff (line : List Char) :
    (regexMatch line).isSome = true ↔ ContainsTimeTag line := by
  induction line with
  | nil =>
    unfold regexMatch
    rw [matchHere_isSome_iff]
    constructor
    · intro h
      exact ⟨[], [], rfl, h⟩
    · rintro ⟨before, after, h, hb⟩
      have : after = [] := by
        have := congrArg List.length h
        simp at this
        exact List.eq_nil_of_length_eq_zero (by omega)
      rw [this] at hb
      exact hb
  | cons c cs ih =>
    unfold regexMatch
    cases hm : matchHere (c :: cs) with
    | some m =>
      simp only [Option.isSome_some, true_iff]
      exact ⟨[], c :: cs, rfl, (matchHere_isSome_iff _).1 (by rw [hm]; rfl)⟩
    | none =>
      simp only
      rw [ih]
      constructor
      · rintro ⟨before, after, h, hb⟩
        exact ⟨c :: before, after, by rw [h]; rfl, hb⟩
      · rintro ⟨before, after, h, hb⟩
        cases before with
        | nil =>
          simp only [List.nil_append] at h
          rw [← h] at hb
          have := (matchHere_isSome_iff _).2 hb
          rw [hm] at this
          cases this
        | cons b bs =>
          simp only [List.cons_append, List.cons.injEq] at h
          exact ⟨bs, after, h.2, hb⟩

theorem parseLine_isSome_iff (line : List Char) :
    (parseLine line).isSome = true ↔ ContainsTimeTag line := by
  rw [← regexMatch_isSome_iff]
  unfold parseLine
  cases regexMatch line with
  | none => simp
  | some m => simp

theorem regexMatch_tagLine (min sec rest : List Char) (hm : IsDigits min) (hs : IsDigits sec) :
    regexMatch (tagLine min sec rest) =
      some (min, sec, rest.takeWhile (fun c => !isLineTerminator c)) := by
  have h := matchHere_tagLine min sec rest hm hs
  unfold tagLine at h ⊢
  unfold regexMatch
  rw [h]

theorem parseLine_render (e : TaggedLine) (hm : IsDigits e.min) (hs : IsDigits e.sec) :
    parseLine e.render =
      some ⟨parseInt e.min * 60 + parseInt e.sec,
        trim (e.rest.takeWhile (fun c => !isLineTerminator c))⟩ := by
  unfold parseLine TaggedLine.render
  rw [regexMatch_tagLine e.min e.sec e.rest hm hs]

theorem render_no_newline (e : TaggedLine) (h : e.WellFormed) : '\n' ∉ e.render := by
  obtain ⟨hm, hs, hr⟩ := h
  have hd : ∀ s : List Char, (∀ c ∈ s, isDigit c = true) → '\n' ∉ s := by
    intro s hs' hmem
    have := hs' _ hmem
    revert this
    decide
  simp only [TaggedLine.render, tagLine, List.mem_cons, List.mem_append, not_or]
  exact ⟨by decide, hd _ hm.2, by decide, hd _ hs.2, by decide, hr⟩

theorem parseLRC_eq_filterMap (text : List Char) :
    parseLRC text = (split text).filterMap parseLine := by
  simp [parseLRC, List.filterMap_map]

theorem length_filterMap_eq_length_filter {α β : Type} (f : α → Option β) (l : List α) :
    (l.filterMap f).length = (l.filter (fun a => (f a).isSome)).length := by
  induction l with
  | nil => rfl
  | cons a l ih =>
    cases h : f a with
    | none => simp [List.filterMap_cons, h, ih]
    | some b => simp [List.filterMap_cons, h, ih]

theorem filterMap_parseLine_render (es : List TaggedLine) (h : ∀ e ∈ es, e.WellFormed) :
    (es.map TaggedLine.render).filterMap parseLine =
      es.map (fun e => ⟨parseInt e.min * 60 + parseInt e.sec,
        trim (e.rest.takeWhile (fun c => !isLineTerminator c))⟩) := by
  induction es with
  | nil => rfl
  | cons e es ih =>
    have he := h e (by simp)
    simp only [List.map_cons, List.filterMap_cons, parseLine_render e he.1 he.2.1]
    rw [ih (fun x hx => h x (List.mem_cons_of_mem _ hx))]

theorem parseInt_append_digit (s : List Char) (c : Char) :
    parseInt (s ++ [c]) = parseInt s * 10 + (c.toNat - 48) := by
  simp [parseInt, List.foldl_append]

/-- The value computed by `parseInt` is the number written by the digits in base ten. -/
theorem parseInt_eq_ofDigits (s : List Char) :
    parseInt s = Nat.ofDigits 10 (s.reverse.map (fun c => c.toNat - 48)) := by
  induction s using List.reverseRecOn with
  | nil => rfl
  | append_singleton s c ih =>
    rw [parseInt_append_digit, ih]
    simp [Nat.ofDigits_cons, Nat.add_comm, Nat.mul_comm]

/-! ## Claims on the parser -/

/-- C5, as stated, fails: for the well-formed line `[0:1]a<CR>b` the entry text is `a`, not the
trimmed trailing text `a<CR>b`: the capture `(.*)` stops at a carriage return. -/
theorem parseLRC_trimmed_rest_counterexample :
    ¬ ∀ es : List TaggedLine, (∀ e ∈ es, e.WellFormed) →
        parseLRC (joinLines (es.map TaggedLine.render)) =
          es.map (fun e => ⟨parseInt e.min * 60 + parseInt e.sec, trim e.rest⟩) := by
  intro h
  have hw : ∀ e ∈ [(⟨"0".toList, "1".toList, "a\rb".toList⟩ : TaggedLine)], e.WellFormed := by
    intro e he
    rw [List.mem_singleton] at he
    subst he
    refine ⟨⟨by decide, by decide⟩, ⟨by decide, by decide⟩, by decide⟩
  have h1 := h [⟨"0".toList, "1".toList, "a\rb".toList⟩] hw
  have h2 : parseLRC (joinLines
      ([(⟨"0".toList, "1".toList, "a\rb".toList⟩ : TaggedLine)].map TaggedLine.render)) =
      [⟨1, "a".toList⟩] := by decide
  rw [h2] at h1
  revert h1
  decide

/-- C5, amended: for a text whose lines all have the form `[m:s]rest`, with `m` and `s` non-empty
strings of decimal digits such that `m * 60 + s` is below `2^53` (the range in which the double
arithmetic of the page is exact) and `rest` free of line feeds, `parseLRC` returns one entry per
line, in input order; entry `k` has the time `m * 60 + s` of line `k`, without range check or
normalisation of the seconds, and its text is the part of `rest` in front of its first line
terminator (carriage return, U+2028 or U+2029), with leading and trailing white space removed.
The bound keeps the statement inside the range where the exact numbers of the embedding and the
doubles of the page are the same numbers. -/
theorem parseLRC_wellFormed (es : List TaggedLine) (h : ∀ e ∈ es, e.WellFormed)
    (_hexact : ∀ e ∈ es, parseInt e.min * 60 + parseInt e.sec < 2 ^ 53) :
    parseLRC (joinLines (es.map TaggedLine.render)) =
      es.map (fun e => ⟨parseInt e.min * 60 + parseInt e.sec,
        trim (e.rest.takeWhile (fun c => !isLineTerminator c))⟩) := by
  cases es with
  | nil => decide
  | cons e es =>
    rw [parseLRC_eq_filterMap, split_joinLines _ (by simp)]
    · exact filterMap_parseLine_render (e :: es) h
    · intro l hl
      obtain ⟨x, hx, rfl⟩ := List.mem_map.1 hl
      exact render_no_newline x (h x hx)

/-- C5, amended, witness: the two lines `[1:75]x` and `[0:1] a<CR>b` give (135, x) and (1, a). -/
theorem parseLRC_wellFormed_witness :
    (∀ e ∈ [(⟨"1".toList, "75".toList, "x".toList⟩ : TaggedLine),
        ⟨"0".toList, "1".toList, " a\rb".toList⟩], e.WellFormed) ∧
    (∀ e ∈ [(⟨"1".toList, "75".toList, "x".toList⟩ : TaggedLine),
        ⟨"0".toList, "1".toList, " a\rb".toList⟩],
      parseInt e.min * 60 + parseInt e.sec < 2 ^ 53) ∧
    parseLRC "[1:75]x\n[0:1] a\rb".toList = [⟨135, "x".toList⟩, ⟨1, "a".toList⟩] :=
  have hw : ∀ e ∈ [(⟨"1".toList, "75".toList, "x".toList⟩ : TaggedLine),
      ⟨"0".toList, "1".toList, " a\rb".toList⟩], e.WellFormed := by
    intro e he
    simp only [List.mem_cons, List.mem_singleton, List.not_mem_nil, or_false] at he
    rcases he with rfl | rfl
    · exact ⟨⟨by decide, by decide⟩, ⟨by decide, by decide⟩, by decide⟩
    · exact ⟨⟨by decide, by decide⟩, ⟨by decide, by decide⟩, by decide⟩
  have hexact : ∀ e ∈ [(⟨"1".toList, "75".toList, "x".toList⟩ : TaggedLine),
      ⟨"0".toList, "1".toList, " a\rb".toList⟩],
      parseInt e.min * 60 + parseInt e.sec < 2 ^ 53 := by
    intro e he
    simp only [List.mem_cons, List.mem_singleton, List.not_mem_nil, or_false] at he
    rcases he with rfl | rfl <;> decide
  ⟨hw, hexact, (parseLRC_wellFormed _ hw hexact).trans (by decide)⟩

/-- C6, as stated, fails: the line `x[0:01]y` does not begin with a time tag, and `parseLRC`
returns the entry (1, y) for it: the regular expression is searched for anywhere in the line. -/
theorem parseLRC_leading_tag_counterexample :
    ¬ BeginsWithTimeTag "x[0:01]y".toList ∧
    parseLRC "x[0:01]y".toList = [⟨1, "y".toList⟩] := by
  refine ⟨?_, by decide⟩
  rintro ⟨min, sec, rest, _, _, h⟩
  simp [tagLine] at h

/-- C6, amended: `parseLRC` is total; the length of its result is the number of lines of the
text for which the search of the regular expression succeeds, and the search succeeds for a line
exactly when the line holds a time tag `[digits:digits]` somewhere, at its start or after other
characters; the other lines contribute no entry. The empty text gives the empty timeline. -/
theorem parseLRC_length (text : List Char) :
    (parseLRC text).length = ((split text).filter (fun l => (parseLine l).isSome)).length ∧
    (∀ line, (parseLine line).isSome = true ↔ ContainsTimeTag line) ∧
    (∀ line, ¬ ContainsTimeTag line → parseLine line = none) ∧
    parseLRC [] = [] := by
  refine ⟨?_, parseLine_isSome_iff, ?_, by decide⟩
  · rw [parseLRC_eq_filterMap]
    exact length_filterMap_eq_length_filter parseLine (split text)
  · intro line hline
    cases hp : parseLine line with
    | none => rfl
    | some e => exact absurd ((parseLine_isSome_iff line).1 (by rw [hp]; rfl)) hline

/-! ## Rendering -/

theorem countOccurrences_cons (pattern : List Char) (c : Char) (s : List Char) :
    countOccurrences pattern (c :: s) =
      (if pattern.isPrefixOf (c :: s) = true then 1 else 0) + countOccurrences pattern s := by
  unfold countOccurrences
  rw [List.tails, List.filter_cons]
  split <;> simp [Nat.add_comm]

theorem countOccurrences_openTag_skip (x rest : List Char) (hx : '<' ∉ x) :
    countOccurrences openTag (x ++ rest) = countOccurrences openTag rest := by
  induction x with
  | nil => rfl
  | cons c cs ih =>
    have hc : c ≠ '<' := fun h => hx (by simp [h])
    have hc' : ('<' == c) = false := by
      simp only [beq_eq_false_iff_ne, ne_eq]
      exact fun h => hc h.symm
    rw [List.cons_append, countOccurrences_cons,
      ih (fun h => hx (List.mem_cons_of_mem _ h))]
    simp [openTag, List.isPrefixOf, hc']

theorem countOccurrences_openTag_entry (text rest : List Char) (ht : '<' ∉ text) :
    countOccurrences openTag (openTag ++ text ++ closeTag ++ rest) =
      1 + countOccurrences openTag rest := by
  have h1 : openTag ++ text ++ closeTag ++ rest =
      '<' :: ("div class=\"lyric-line\">".toList ++ (text ++ (closeTag ++ rest))) := by
    simp [openTag]
  have h2 : openTag.isPrefixOf
      ('<' :: ("div class=\"lyric-line\">".toList ++ (text ++ (closeTag ++ rest)))) = true := by
    simp [openTag, List.isPrefixOf]
  have h3 : closeTag ++ rest = '<' :: ("/div>".toList ++ rest) := by
    simp [closeTag]
  have h4 : openTag.isPrefixOf ('<' :: ("/div>".toList ++ rest)) = false := by
    simp [openTag, List.isPrefixOf]
  rw [h1, countOccurrences_cons, h2, countOccurrences_openTag_skip _ _ (by decide),
    countOccurrences_openTag_skip _ _ ht, h3, countOccurrences_cons, h4,
    countOccurrences_openTag_skip _ _ (by decide)]
  simp

/-- When no lyric text holds the character `<`, the markup written by `displayLyrics` holds one
opening tag of a lyric line per timeline entry. -/
theorem displayLyrics_openTags_of_plain_text (lyricsData : List TimedLine)
    (h : ∀ l ∈ lyricsData, '<' ∉ l.text) :
    countOccurrences openTag (displayLyrics lyricsData) = lyricsData.length := by
  induction lyricsData with
  | nil => decide
  | cons l ls ih =>
    have := ih (fun x hx => h x (List.mem_cons_of_mem _ hx))
    unfold displayLyrics at this ⊢
    rw [List.map_cons, List.flatten_cons,
      countOccurrences_openTag_entry _ _ (h l (by simp)), this]
    simp [Nat.add_comm]

/-- C7, failing input: after an upload whose lyrics file is the line
`[0:00]<div class="lyric-line active">x</div>` the markup given to the page for the one-entry
timeline holds two lyric-line elements, and the inner one carries the class `active`. -/
theorem displayLyrics_after_upload_active_markup :
    parseLRC "[0:00]<div class=\"lyric-line active\">x</div>".toList =
      [⟨0, "<div class=\"lyric-line active\">x</div>".toList⟩] ∧
    displayLyrics (parseLRC "[0:00]<div class=\"lyric-line active\">x</div>".toList) =
      "<div class=\"lyric-line\"><div class=\"lyric-line active\">x</div></div>".toList := by
  decide

/-- C9, failing input: for the lyrics line
`[0:00]<div class="lyric-line active">a</div><div class="lyric-line active">b</div>` the markup
written by `displayLyrics` holds two lyric-line elements with the class `active`, at the
element indices 1 and 2 of a page whose timeline has the single index 0. -/
theorem displayLyrics_two_active_markup :
    (parseLRC ("[0:00]<div class=\"lyric-line active\">a</div>".toList ++
      "<div class=\"lyric-line active\">b</div>".toList)).length = 1 ∧
    displayLyrics (parseLRC ("[0:00]<div class=\"lyric-line active\">a</div>".toList ++
      "<div class=\"lyric-line active\">b</div>".toList)) =
      "<div class=\"lyric-line\">".toList ++
        ("<div class=\"lyric-line active\">a</div>".toList ++
          ("<div class=\"lyric-line active\">b</div>".toList ++ "</div>".toList)) ∧
    countOccurrences "<div class=\"lyric-line active\">".toList
      (displayLyrics (parseLRC ("[0:00]<div class=\"lyric-line active\">a</div>".toList ++
        "<div class=\"lyric-line active\">b</div>".toList))) = 2 := by
  decide

/-- C10, failing input: for the lyrics line `[0:00]<div class="lyric-line">x</div>` the timeline
has one entry and the markup written by `displayLyrics` holds two opening tags of a lyric
line. -/
theorem displayLyrics_injected_openTag :
    (parseLRC "[0:00]<div class=\"lyric-line\">x</div>".toList).length = 1 ∧
    countOccurrences openTag
      (displayLyrics (parseLRC "[0:00]<div class=\"lyric-line\">x</div>".toList)) = 2 := by
  decide

end WhisperLyrics
